import Mathlib

/-!
The `AckPacket` codec of krakatoa/rtmp, package `handshake`.

A shallow embedding of `src/handshake/packet_ack.go`.

* Bytes are `Fin 256`; a `uint32` is a `Nat` below `2^32`; the fixed array
  `[1528]byte` is a `List Byte` whose length is kept by `AckPacket.Valid`.
* An `io.Reader` is a step function on an explicit state: asked for `len(p)`
  bytes it answers with the bytes it stored at the front of `p`, an optional
  error and its next state.  The count `n` it reports is the length of the
  answer, so a reader may answer short, may answer together with an error and
  may even claim more than was asked.  Go lets `Read` use all of `p` as
  scratch space, so the answer also carries the bytes the reader left in `p`
  behind the `n` it reports.
* An `io.Writer` is a step function that is offered a byte sequence and
  answers with a count, an optional error and its next state.
* The standard-library routines the source calls (`binary.Read`,
  `binary.Write`, `io.ReadFull`, `bytes.Buffer.WriteTo`) are transcribed from
  the Go standard library.  The loop of `io.ReadAtLeast` has no bound in Go,
  so it carries fuel here; `none` stands for a call that has not returned.
-/

namespace Handshake

/-- One octet. -/
abbrev Byte := Fin 256

/-- Go's conversion `byte(v)` on an unsigned value: keep the low eight bits. -/
def toByte (v : Nat) : Byte := ⟨v % 256, Nat.mod_lt v (by decide)⟩

/-- The error values that can leave the codec: the sentinels of package `io`
and whatever else a reader or writer reports. -/
inductive Error where
  | EOF
  | ErrUnexpectedEOF
  | ErrShortWrite
  | ErrShortBuffer
  | other (code : Nat)
  deriving DecidableEq, Repr

/-- Go `binary.BigEndian.PutUint32`: `b[0] = byte(v >> 24)`, `b[1] = byte(v >> 16)`,
`b[2] = byte(v >> 8)`, `b[3] = byte(v)`. -/
def putUint32 (v : Nat) : List Byte :=
  [toByte (v >>> 24), toByte (v >>> 16), toByte (v >>> 8), toByte v]

/-- Go `binary.BigEndian.Uint32`:
`uint32(b[3]) | uint32(b[2])<<8 | uint32(b[1])<<16 | uint32(b[0])<<24`.
Indexing a slice shorter than four bytes panics in Go; the callers here pass
four bytes, and the model reads a missing byte as `0`. -/
def uint32 (b : List Byte) : Nat :=
  (b.getD 3 0).val ||| (b.getD 2 0).val <<< 8 ||| (b.getD 1 0).val <<< 16 |||
    (b.getD 0 0).val <<< 24

/-- The packet of the handshake: `Time1 uint32`, `Time2 uint32`,
`Payload [1528]byte`. -/
structure AckPacket where
  Time1 : Nat
  Time2 : Nat
  Payload : List Byte
  deriving DecidableEq, Repr

/-- Length of the `Payload` array. -/
def payloadSize : Nat := 1528

/-- Size of one packet on the wire. -/
def packetSize : Nat := 4 + 4 + payloadSize

/-- The invariants the Go types give for free: both times fit in 32 bits and
the payload has exactly 1528 bytes. -/
def AckPacket.Valid (a : AckPacket) : Prop :=
  a.Time1 < 2 ^ 32 ∧ a.Time2 < 2 ^ 32 ∧ a.Payload.length = payloadSize

instance (a : AckPacket) : Decidable a.Valid := by
  unfold AckPacket.Valid; infer_instance

/-! Readers. -/

/-- What one call `r.Read(p)` yields: the bytes stored at the front of `p`
(their number is the count `n`), the bytes the reader left in `p` right behind
them (Go lets `Read` use all of `p` as scratch space even when `n < len(p)`;
empty for a reader that only copies its data), the error, and the reader
afterwards. -/
structure ReadOut (σ : Type) where
  data : List Byte
  scratch : List Byte
  err : Option Error
  next : σ

/-- An `io.Reader` with internal state `σ`: `read s k` is a call of `Read`
with a buffer of length `k`. -/
structure Reader (σ : Type) where
  read : σ → Nat → ReadOut σ

/-- One recorded call of `Read`: the length of the buffer offered and the
bytes the reader delivered. -/
structure Call where
  req : Nat
  got : List Byte
  deriving DecidableEq, Repr

/-- Bytes consumed from the source over a sequence of calls. -/
def consumed (cs : List Call) : Nat := (cs.map fun c => c.got.length).sum

/-- The consumed byte stream itself, in order. -/
def stream (cs : List Call) : List Byte := (cs.map fun c => c.got).flatten

/-- The effect of a reader writing `data` from the front of the buffer `buf`:
the buffer keeps its length, no more than `len(buf)` bytes can be written, and
only the bytes the reader did not write keep their old value. -/
def store (buf data : List Byte) : List Byte :=
  data.take buf.length ++ buf.drop data.length

/-- Loop state of `io.ReadAtLeast`: the buffer, the running count `n`, the last
error, the reader, and the calls made so far. -/
structure ReadState (σ : Type) where
  buf : List Byte
  n : Nat
  err : Option Error
  src : σ
  calls : List Call

/-- The loop of `io.ReadAtLeast`:
`for n < min && err == nil { nn, err = r.Read(buf[n:]); n += nn }`. -/
def readLoop {σ : Type} (r : Reader σ) (min : Nat) : Nat → ReadState σ → Option (ReadState σ)
  | fuel, st =>
    if st.n < min ∧ st.err = none then
      match fuel with
      | 0 => none
      | fuel + 1 =>
        let out := r.read st.src (st.buf.length - st.n)
        readLoop r min fuel
          { buf := st.buf.take st.n ++ store (st.buf.drop st.n) (out.data ++ out.scratch)
            n := st.n + out.data.length
            err := out.err
            src := out.next
            calls := st.calls ++ [⟨st.buf.length - st.n, out.data⟩] }
    else some st

/-- Go `io.ReadAtLeast(r, buf, min)`: short buffer check, the loop, then
`if n >= min { err = nil } else if n > 0 && err == EOF { err = ErrUnexpectedEOF }`. -/
def readAtLeast {σ : Type} (fuel : Nat) (r : Reader σ) (s : σ) (buf : List Byte) (min : Nat) :
    Option (ReadState σ) :=
  if buf.length < min then
    some { buf := buf, n := 0, err := some Error.ErrShortBuffer, src := s, calls := [] }
  else
    match readLoop r min fuel { buf := buf, n := 0, err := none, src := s, calls := [] } with
    | none => none
    | some st =>
      if min ≤ st.n then some { st with err := none }
      else if 0 < st.n ∧ st.err = some Error.EOF then
        some { st with err := some Error.ErrUnexpectedEOF }
      else some st

/-- Go `io.ReadFull(r, buf)` is `ReadAtLeast(r, buf, len(buf))`. -/
def readFull {σ : Type} (fuel : Nat) (r : Reader σ) (s : σ) (buf : List Byte) :
    Option (ReadState σ) :=
  readAtLeast fuel r s buf buf.length

/-- Result of `binary.Read(r, binary.BigEndian, &x)` for `x uint32`: the new
value of `x`, the error, the count `io.ReadFull` reached, the reader afterwards
and the calls made. -/
structure BinRead (σ : Type) where
  val : Nat
  err : Option Error
  n : Nat
  src : σ
  calls : List Call

/-- Go `binary.Read(r, binary.BigEndian, data)` with `data *uint32` (the fast
path): `bs := make([]byte, 4)`, `io.ReadFull(r, bs)`; on error return it and
leave `*data` alone, otherwise `*data = order.Uint32(bs)`. -/
def binaryRead {σ : Type} (fuel : Nat) (r : Reader σ) (s : σ) (old : Nat) : Option (BinRead σ) :=
  match readFull fuel r s [0, 0, 0, 0] with
  | none => none
  | some st =>
    match st.err with
    | some e => some { val := old, err := some e, n := st.n, src := st.src, calls := st.calls }
    | none => some { val := uint32 st.buf, err := none, n := st.n, src := st.src, calls := st.calls }

/-- Result of `AckPacket.Read`: the receiver after the call, the returned
error, the reader afterwards and every call of `r.Read` in order. -/
structure ReadResult (σ : Type) where
  pkt : AckPacket
  err : Option Error
  src : σ
  calls : List Call

/-- Source `func (a *AckPacket) Read(r io.Reader) error`: `binary.Read` into
`a.Time1`, `binary.Read` into `a.Time2`, then one `r.Read(a.Payload[:])` whose
count is discarded; the first non-nil error is returned. -/
def AckPacket.Read {σ : Type} (fuel : Nat) (r : Reader σ) (s : σ) (a : AckPacket) :
    Option (ReadResult σ) :=
  match binaryRead fuel r s a.Time1 with
  | none => none
  | some r1 =>
    let a1 : AckPacket := { a with Time1 := r1.val }
    match r1.err with
    | some e => some { pkt := a1, err := some e, src := r1.src, calls := r1.calls }
    | none =>
      match binaryRead fuel r r1.src a1.Time2 with
      | none => none
      | some r2 =>
        let a2 : AckPacket := { a1 with Time2 := r2.val }
        match r2.err with
        | some e => some { pkt := a2, err := some e, src := r2.src, calls := r1.calls ++ r2.calls }
        | none =>
          let out := r.read r2.src a2.Payload.length
          let a3 : AckPacket := { a2 with Payload := store a2.Payload (out.data ++ out.scratch) }
          let calls := r1.calls ++ r2.calls ++ [⟨a2.Payload.length, out.data⟩]
          match out.err with
          | some e => some { pkt := a3, err := some e, src := out.next, calls := calls }
          | none => some { pkt := a3, err := none, src := out.next, calls := calls }

/-- Go `bytes.Reader` over a byte slice, the state being the unread rest:
`if r.i >= len(r.s) { return 0, io.EOF }; n = copy(b, r.s[r.i:]); r.i += n`.
It writes to `b` through `copy` only, so it leaves nothing behind the `n`
bytes. -/
def memReader : Reader (List Byte) where
  read rest k :=
    if rest.length = 0 then { data := [], scratch := [], err := some Error.EOF, next := rest }
    else { data := rest.take k, scratch := [], err := none, next := rest.drop k }

/-- A reader over a byte slice that hands out at most `c` bytes per call, the
way a network connection returns what has arrived so far, and reports `io.EOF`
once the slice is used up. -/
def chunkReader (c : Nat) : Reader (List Byte) where
  read rest k :=
    if rest.length = 0 then { data := [], scratch := [], err := some Error.EOF, next := rest }
    else
      { data := rest.take (Nat.min k c), scratch := [], err := none
        next := rest.drop (Nat.min k c) }

/-- A reader over a byte slice that reports `io.EOF` in the same call that
delivers the last bytes, which the contract of `io.Reader` allows. -/
def eofWithDataReader : Reader (List Byte) where
  read rest k :=
    if rest.length ≤ k then { data := rest, scratch := [], err := some Error.EOF, next := [] }
    else { data := rest.take k, scratch := [], err := none, next := rest.drop k }

/-! Writers. -/

/-- What one call `w.Write(p)` yields: the count, the error, the writer
afterwards. -/
structure WriteOut (ω : Type) where
  n : Nat
  err : Option Error
  next : ω

/-- An `io.Writer` with internal state `ω`. -/
structure Writer (ω : Type) where
  write : ω → List Byte → WriteOut ω

/-- How a call ends: it returns `nil`, returns an error, or panics. -/
inductive Outcome where
  | ok
  | fail (e : Error)
  | panic
  deriving DecidableEq, Repr

/-- Result of `AckPacket.Write`: how it ended, the receiver afterwards, the
writer afterwards and the byte sequences offered to `w.Write`, in order. -/
structure WriteResult (ω : Type) where
  out : Outcome
  pkt : AckPacket
  dst : ω
  offered : List (List Byte)

/-- Go `binary.Write(buf, binary.BigEndian, v)` for `v uint32` onto a
`*bytes.Buffer`: four bytes are appended; `bytes.Buffer.Write` always returns a
nil error. -/
def binaryWrite (buf : List Byte) (v : Nat) : List Byte × Option Error :=
  (buf ++ putUint32 v, none)

/-- Go `bytes.Buffer.WriteTo(w)` on the unread contents `buf`:
`if nBytes > 0 { m, e := w.Write(buf); if m > nBytes { panic }; if e != nil
{ return e }; if m != nBytes { return io.ErrShortWrite } }; return nil`. -/
def bufferWriteTo {ω : Type} (w : Writer ω) (d : ω) (buf : List Byte) :
    Outcome × ω × List (List Byte) :=
  if 0 < buf.length then
    let o := w.write d buf
    if buf.length < o.n then (Outcome.panic, o.next, [buf])
    else
      match o.err with
      | some e => (Outcome.fail e, o.next, [buf])
      | none =>
        if o.n ≠ buf.length then (Outcome.fail Error.ErrShortWrite, o.next, [buf])
        else (Outcome.ok, o.next, [buf])
  else (Outcome.ok, d, [])

/-- Source `func (a *AckPacket) Write(w io.Writer) error`: both times and the payload
are gathered in a fresh `bytes.Buffer`, which is then written to `w` with
`buf.WriteTo(w)`. -/
def AckPacket.Write {ω : Type} (w : Writer ω) (d : ω) (a : AckPacket) : WriteResult ω :=
  let buf : List Byte := []
  match binaryWrite buf a.Time1 with
  | (_, some e) => { out := Outcome.fail e, pkt := a, dst := d, offered := [] }
  | (buf, none) =>
    match binaryWrite buf a.Time2 with
    | (_, some e) => { out := Outcome.fail e, pkt := a, dst := d, offered := [] }
    | (buf, none) =>
      let buf := buf ++ a.Payload
      match bufferWriteTo w d buf with
      | (o, d1, offered) => { out := o, pkt := a, dst := d1, offered := offered }

/-- A `bytes.Buffer` used as destination: every write is appended in full and
returns `len(p), nil`. -/
def bufWriter : Writer (List Byte) where
  write contents p := { n := p.length, err := none, next := contents ++ p }

/-- The bytes `AckPacket.Write` leaves in an empty in-memory buffer. -/
def encode (a : AckPacket) : List Byte := (a.Write bufWriter []).dst


/-! Concrete packets and streams used in the worked examples. -/

/-- The packet of the worked example: `Time1 = 0`, `Time2 = 1`, all-zero
payload. -/
def examplePacket : AckPacket := { Time1 := 0, Time2 := 1, Payload := List.replicate 1528 0 }

/-- A receiver whose fields are all zero. -/
def zeroPacket : AckPacket := { Time1 := 0, Time2 := 0, Payload := List.replicate 1528 0 }

/-- A receiver that was used before: both times `0xFFFFFFFF`, every payload
byte `0xFF`. -/
def usedPacket : AckPacket :=
  { Time1 := 4294967295, Time2 := 4294967295, Payload := List.replicate 1528 255 }

/-- A destination that accepts at most `k` bytes of each write and reports no
error. -/
def shortWriter (k : Nat) : Writer (List Byte) where
  write contents p := { n := Nat.min k p.length, err := none, next := contents ++ p.take k }

/-- A destination whose every write fails with the error `e`, nothing
written. -/
def failingWriter (e : Error) : Writer Unit where
  write _ _ := { n := 0, err := some e, next := () }
theorem toByte_val (v : Nat) : (toByte v).val = v % 256 := rfl

theorem or_shift_eq_add (a b i : Nat) (h : a < 2 ^ i) : a ||| b <<< i = a + b * 2 ^ i := by
  rw [Nat.shiftLeft_eq, Nat.or_comm, Nat.mul_comm b, ← Nat.mul_add_lt_is_or h b, Nat.add_comm]

theorem uint32_eq_sum (b0 b1 b2 b3 : Byte) :
    uint32 [b0, b1, b2, b3] = b3.val + b2.val * 2 ^ 8 + b1.val * 2 ^ 16 + b0.val * 2 ^ 24 := by
  have h0 := b0.isLt
  have h1 := b1.isLt
  have h2 := b2.isLt
  have h3 := b3.isLt
  simp only [uint32, List.getD_cons_zero, List.getD_cons_succ]
  rw [or_shift_eq_add _ _ 8 (by omega), or_shift_eq_add _ _ 16 (by omega),
    or_shift_eq_add _ _ 24 (by omega)]

theorem uint32_putUint32 (v : Nat) (h : v < 2 ^ 32) : uint32 (putUint32 v) = v := by
  unfold putUint32
  rw [uint32_eq_sum]
  simp only [toByte_val, Nat.shiftRight_eq_div_pow]
  omega

theorem uint32_lt (b : List Byte) (h : b.length = 4) : uint32 b < 2 ^ 32 := by
  match b, h with
  | [b0, b1, b2, b3], _ =>
    rw [uint32_eq_sum]
    have h0 := b0.isLt
    have h1 := b1.isLt
    have h2 := b2.isLt
    have h3 := b3.isLt
    omega

theorem store_length (buf data : List Byte) : (store buf data).length = buf.length := by
  simp only [store, List.length_append, List.length_take, List.length_drop]
  omega

theorem store_full (buf data : List Byte) (h : data.length = buf.length) :
    store buf data = data := by
  simp [store, h]

theorem store_full_append (buf data extra : List Byte) (h : data.length = buf.length) :
    store buf (data ++ extra) = data := by
  unfold store
  rw [← h, List.take_left, List.drop_eq_nil_of_le (by rw [List.length_append, h]; omega),
    List.append_nil]


/-! Unfolding the loop of `io.ReadAtLeast`. -/

theorem readLoop_done {σ : Type} (r : Reader σ) (min fuel : Nat) (st : ReadState σ)
    (h : ¬ (st.n < min ∧ st.err = none)) : readLoop r min fuel st = some st := by
  cases fuel <;> simp [readLoop, h]

theorem readLoop_step {σ : Type} (r : Reader σ) (min fuel : Nat) (st : ReadState σ)
    (hn : st.n < min) (he : st.err = none) :
    readLoop r min (fuel + 1) st =
      readLoop r min fuel
        { buf := st.buf.take st.n ++ store (st.buf.drop st.n)
            ((r.read st.src (st.buf.length - st.n)).data ++
              (r.read st.src (st.buf.length - st.n)).scratch)
          n := st.n + (r.read st.src (st.buf.length - st.n)).data.length
          err := (r.read st.src (st.buf.length - st.n)).err
          src := (r.read st.src (st.buf.length - st.n)).next
          calls := st.calls ++ [⟨st.buf.length - st.n, (r.read st.src (st.buf.length - st.n)).data⟩] } := by
  simp [readLoop, hn, he]

/-- When the loop of `io.ReadAtLeast` stops below `min`, it stopped on an
error. -/
theorem readLoop_short_err {σ : Type} (r : Reader σ) (min : Nat) :
    ∀ (fuel : Nat) (st st1 : ReadState σ), readLoop r min fuel st = some st1 →
      st1.n < min → st1.err ≠ none := by
  intro fuel
  induction fuel with
  | zero =>
    intro st st1 h hlt
    by_cases hc : st.n < min ∧ st.err = none
    · simp [readLoop, hc] at h
    · rw [readLoop_done r min 0 st hc] at h
      cases h
      intro he
      exact hc ⟨hlt, he⟩
  | succ fuel ih =>
    intro st st1 h hlt
    by_cases hc : st.n < min ∧ st.err = none
    · rw [readLoop_step r min fuel st hc.1 hc.2] at h
      exact ih _ st1 h hlt
    · rw [readLoop_done r min (fuel + 1) st hc] at h
      cases h
      intro he
      exact hc ⟨hlt, he⟩

/-- A `binary.Read` that ends below four bytes ends with an error and leaves
the old value in place. -/
theorem binaryRead_short {σ : Type} (fuel : Nat) (r : Reader σ) (s : σ) (old : Nat)
    (r1 : BinRead σ) (h : binaryRead fuel r s old = some r1) (hn : r1.n < 4) :
    ∃ e, r1.err = some e ∧ r1.val = old := by
  unfold binaryRead readFull readAtLeast at h
  simp only [List.length_cons, List.length_nil, Nat.lt_irrefl, if_false] at h
  cases hl : readLoop r 4 fuel
      { buf := [0, 0, 0, 0], n := 0, err := none, src := s, calls := [] } with
  | none => simp [hl] at h
  | some st =>
    have hs := readLoop_short_err r 4 fuel _ st hl
    simp only [hl] at h
    by_cases h4 : 4 ≤ st.n
    · simp only [h4, if_true] at h
      cases h
      simp at hn
      omega
    · simp only [h4, if_false] at h
      have hne : st.err ≠ none := hs (by omega)
      by_cases h0 : 0 < st.n ∧ st.err = some Error.EOF
      · simp only [h0, and_self, if_true] at h
        cases h
        exact ⟨Error.ErrUnexpectedEOF, rfl, rfl⟩
      · simp only [h0, if_false] at h
        cases he : st.err with
        | none => exact absurd he hne
        | some e =>
          simp only [he] at h
          cases h
          exact ⟨e, rfl, rfl⟩

/-- A `binary.Read` that returns an error leaves the old value in place. -/
theorem binaryRead_err_val {σ : Type} (fuel : Nat) (r : Reader σ) (s : σ) (old : Nat)
    (r1 : BinRead σ) (h : binaryRead fuel r s old = some r1) (e : Error)
    (he : r1.err = some e) : r1.val = old := by
  unfold binaryRead at h
  cases hf : readFull fuel r s [0, 0, 0, 0] with
  | none => simp [hf] at h
  | some st =>
    simp only [hf] at h
    cases hs : st.err with
    | none =>
      simp only [hs] at h
      cases h
      simp at he
    | some e1 =>
      simp only [hs] at h
      cases h
      rfl

/-! Readers that satisfy a request in a single call. -/

/-- When the first call already fills the buffer, `io.ReadFull` makes that one
call only and drops whatever error came with it. -/
theorem readFull_one_shot {σ : Type} (fuel : Nat) (r : Reader σ) (s : σ) (buf : List Byte)
    (hk : 0 < buf.length) (hd : (r.read s buf.length).data.length = buf.length) :
    readFull (fuel + 1) r s buf =
      some { buf := (r.read s buf.length).data, n := buf.length, err := none,
             src := (r.read s buf.length).next,
             calls := [⟨buf.length, (r.read s buf.length).data⟩] } := by
  unfold readFull readAtLeast
  rw [if_neg (Nat.lt_irrefl _), readLoop_step _ _ _ _ hk rfl]
  simp only [Nat.sub_zero, List.take_zero, List.drop_zero, List.nil_append, Nat.zero_add]
  rw [readLoop_done _ _ _ _ (by simp [hd])]
  simp [hd, store_full_append]

theorem binaryRead_one_shot {σ : Type} (fuel : Nat) (r : Reader σ) (s : σ) (old : Nat)
    (hd : (r.read s 4).data.length = 4) :
    binaryRead (fuel + 1) r s old =
      some { val := uint32 (r.read s 4).data, err := none, n := 4, src := (r.read s 4).next,
             calls := [⟨4, (r.read s 4).data⟩] } := by
  unfold binaryRead
  rw [readFull_one_shot fuel r s [0, 0, 0, 0] (by simp) (by simpa using hd)]
  simp

/-- Decoding from a reader that fills both four-byte requests in one call
each: three calls are made, and the error of the payload call is the result. -/
theorem Read_one_shot {σ : Type} (fuel : Nat) (r : Reader σ) (s : σ) (a : AckPacket)
    (hd1 : (r.read s 4).data.length = 4)
    (hd2 : (r.read (r.read s 4).next 4).data.length = 4) :
    a.Read (fuel + 1) r s =
      some { pkt := { Time1 := uint32 (r.read s 4).data
                      Time2 := uint32 (r.read (r.read s 4).next 4).data
                      Payload := store a.Payload
                        ((r.read (r.read (r.read s 4).next 4).next a.Payload.length).data ++
                          (r.read (r.read (r.read s 4).next 4).next a.Payload.length).scratch) }
             err := (r.read (r.read (r.read s 4).next 4).next a.Payload.length).err
             src := (r.read (r.read (r.read s 4).next 4).next a.Payload.length).next
             calls := [⟨4, (r.read s 4).data⟩, ⟨4, (r.read (r.read s 4).next 4).data⟩,
                       ⟨a.Payload.length,
                        (r.read (r.read (r.read s 4).next 4).next a.Payload.length).data⟩] } := by
  unfold AckPacket.Read
  rw [binaryRead_one_shot fuel r s a.Time1 hd1]
  dsimp only
  rw [binaryRead_one_shot fuel r _ a.Time2 hd2]
  dsimp only
  split <;> simp_all

/-! The in-memory reader. -/

theorem memReader_read (rest : List Byte) (k : Nat) (h : 0 < rest.length) :
    memReader.read rest k =
      { data := rest.take k, scratch := [], err := none, next := rest.drop k } := by
  have hne : rest.length ≠ 0 := by omega
  simp only [memReader, hne, if_false]

theorem memReader_read_nil (k : Nat) :
    memReader.read [] k = { data := [], scratch := [], err := some Error.EOF, next := [] } :=
  rfl

/-- Decoding from an in-memory reader that holds more than eight bytes: both
times come from the first eight bytes, the payload read is a single call that
reports no error. -/
theorem Read_memReader (fuel : Nat) (rest : List Byte) (a : AckPacket)
    (hlen : 8 < rest.length) :
    a.Read (fuel + 1) memReader rest =
      some { pkt := { Time1 := uint32 (rest.take 4)
                      Time2 := uint32 ((rest.drop 4).take 4)
                      Payload := store a.Payload ((rest.drop 8).take a.Payload.length) }
             err := none
             src := rest.drop (8 + a.Payload.length)
             calls := [⟨4, rest.take 4⟩, ⟨4, (rest.drop 4).take 4⟩,
                       ⟨a.Payload.length, (rest.drop 8).take a.Payload.length⟩] } := by
  have r1 := memReader_read rest 4 (by omega)
  have r2 := memReader_read (rest.drop 4) 4 (by rw [List.length_drop]; omega)
  have r3 := memReader_read ((rest.drop 4).drop 4) a.Payload.length
    (by rw [List.length_drop, List.length_drop]; omega)
  rw [Read_one_shot fuel memReader rest a
    (by rw [r1]; simp only [List.length_take]; omega)
    (by rw [r1]; dsimp only; rw [r2]; simp only [List.length_take, List.length_drop]; omega)]
  rw [r1]
  dsimp only
  rw [r2]
  dsimp only
  rw [r3]
  simp only [List.drop_drop, List.append_nil]

/-! The encoder. -/

theorem Write_eq {ω : Type} (w : Writer ω) (d : ω) (a : AckPacket) :
    a.Write w d =
      { out := (bufferWriteTo w d (putUint32 a.Time1 ++ putUint32 a.Time2 ++ a.Payload)).1
        pkt := a
        dst := (bufferWriteTo w d (putUint32 a.Time1 ++ putUint32 a.Time2 ++ a.Payload)).2.1
        offered := (bufferWriteTo w d (putUint32 a.Time1 ++ putUint32 a.Time2 ++ a.Payload)).2.2 } := by
  simp [AckPacket.Write, binaryWrite]

/-- Whatever the destination answers, `bytes.Buffer.WriteTo` on a non-empty
buffer offers it the whole buffer in one call. -/
theorem bufferWriteTo_offered {ω : Type} (w : Writer ω) (d : ω) (bs : List Byte)
    (h : 0 < bs.length) : (bufferWriteTo w d bs).2.2 = [bs] := by
  unfold bufferWriteTo
  rw [if_pos h]
  dsimp only
  split
  · rfl
  · split
    · rfl
    · split <;> rfl

theorem bufferWriteTo_ok {ω : Type} (w : Writer ω) (d : ω) (bs : List Byte)
    (h : 0 < bs.length) (hn : (w.write d bs).n = bs.length) (he : (w.write d bs).err = none) :
    (bufferWriteTo w d bs).1 = Outcome.ok := by
  unfold bufferWriteTo
  rw [if_pos h, if_neg (by omega)]
  simp [he, hn]

theorem bufferWriteTo_dst {ω : Type} (w : Writer ω) (d : ω) (bs : List Byte)
    (h : 0 < bs.length) : (bufferWriteTo w d bs).2.1 = (w.write d bs).next := by
  unfold bufferWriteTo
  rw [if_pos h]
  dsimp only
  split
  · rfl
  · split
    · rfl
    · split <;> rfl

theorem wire_length (a : AckPacket) (h : a.Payload.length = payloadSize) :
    (putUint32 a.Time1 ++ putUint32 a.Time2 ++ a.Payload).length = 1536 := by
  simp [putUint32, h, payloadSize]

theorem encode_eq (a : AckPacket) (h : a.Payload.length = payloadSize) :
    encode a = putUint32 a.Time1 ++ putUint32 a.Time2 ++ a.Payload := by
  have hl := wire_length a h
  unfold encode
  rw [Write_eq]
  simp only []
  rw [bufferWriteTo_dst _ _ _ (by omega)]
  rfl

/-! The chunking readers. -/

theorem chunkReader_read (c : Nat) (rest : List Byte) (k : Nat) (h : 0 < rest.length) :
    (chunkReader c).read rest k =
      { data := rest.take (Nat.min k c), scratch := [], err := none
        next := rest.drop (Nat.min k c) } := by
  have hne : rest.length ≠ 0 := by omega
  simp only [chunkReader, hne, if_false]

/-- Decoding from a reader that hands out at most `c` bytes per call, `c` at
least four: the times are read in one call each, and the single payload call
delivers at most `c` bytes without error. -/
theorem Read_chunkReader (fuel c : Nat) (rest : List Byte) (a : AckPacket) (hc : 4 ≤ c)
    (hlen : 8 < rest.length) :
    a.Read (fuel + 1) (chunkReader c) rest =
      some { pkt := { Time1 := uint32 (rest.take 4)
                      Time2 := uint32 ((rest.drop 4).take 4)
                      Payload := store a.Payload
                        ((rest.drop 8).take (Nat.min a.Payload.length c)) }
             err := none
             src := rest.drop (8 + Nat.min a.Payload.length c)
             calls := [⟨4, rest.take 4⟩, ⟨4, (rest.drop 4).take 4⟩,
                       ⟨a.Payload.length, (rest.drop 8).take (Nat.min a.Payload.length c)⟩] } := by
  have h4 : Nat.min 4 c = 4 := Nat.min_eq_left hc
  have r1 := chunkReader_read c rest 4 (by omega)
  have r2 := chunkReader_read c (rest.drop 4) 4 (by rw [List.length_drop]; omega)
  have r3 := chunkReader_read c ((rest.drop 4).drop 4) a.Payload.length
    (by rw [List.length_drop, List.length_drop]; omega)
  rw [h4] at r1 r2
  rw [Read_one_shot fuel (chunkReader c) rest a
    (by rw [r1]; simp only [List.length_take]; omega)
    (by rw [r1]; dsimp only; rw [r2]; simp only [List.length_take, List.length_drop]; omega)]
  rw [r1]
  dsimp only
  rw [r2]
  dsimp only
  rw [r3]
  simp only [List.drop_drop, List.append_nil]

theorem eofWithDataReader_read_more (rest : List Byte) (k : Nat) (h : k < rest.length) :
    eofWithDataReader.read rest k =
      { data := rest.take k, scratch := [], err := none, next := rest.drop k } := by
  have hne : ¬ rest.length ≤ k := by omega
  simp only [eofWithDataReader, hne, if_false]

theorem eofWithDataReader_read_last (rest : List Byte) (k : Nat) (h : rest.length ≤ k) :
    eofWithDataReader.read rest k =
      { data := rest, scratch := [], err := some Error.EOF, next := [] } := by
  simp only [eofWithDataReader, h, if_true]

/-- Decoding from a reader that reports `io.EOF` together with the last bytes,
over a stream of exactly `8 + len(Payload)` bytes: every byte is delivered, and
the result is the error of the payload call. -/
theorem Read_eofWithDataReader (fuel : Nat) (rest : List Byte) (a : AckPacket)
    (hlen : rest.length = 8 + a.Payload.length) (hpos : 0 < a.Payload.length) :
    a.Read (fuel + 1) eofWithDataReader rest =
      some { pkt := { Time1 := uint32 (rest.take 4)
                      Time2 := uint32 ((rest.drop 4).take 4)
                      Payload := rest.drop 8 }
             err := some Error.EOF
             src := []
             calls := [⟨4, rest.take 4⟩, ⟨4, (rest.drop 4).take 4⟩,
                       ⟨a.Payload.length, rest.drop 8⟩] } := by
  have r1 := eofWithDataReader_read_more rest 4 (by omega)
  have r2 := eofWithDataReader_read_more (rest.drop 4) 4 (by rw [List.length_drop]; omega)
  have r3 := eofWithDataReader_read_last ((rest.drop 4).drop 4) a.Payload.length
    (by rw [List.length_drop, List.length_drop]; omega)
  rw [Read_one_shot fuel eofWithDataReader rest a
    (by rw [r1]; simp only [List.length_take]; omega)
    (by rw [r1]; dsimp only; rw [r2]; simp only [List.length_take, List.length_drop]; omega)]
  rw [r1]
  dsimp only
  rw [r2]
  dsimp only
  rw [r3]
  simp only [List.drop_drop, List.append_nil]
  rw [store_full _ _ (by rw [List.length_drop]; omega)]

theorem consumed_three (k1 k2 k3 : Nat) (d1 d2 d3 : List Byte) :
    consumed [⟨k1, d1⟩, ⟨k2, d2⟩, ⟨k3, d3⟩] = d1.length + d2.length + d3.length := by
  simp [consumed, Nat.add_assoc]

theorem store_short (buf data : List Byte) (h : data.length ≤ buf.length) :
    store buf data = data ++ buf.drop data.length := by
  unfold store
  rw [List.take_of_length_le h]

theorem examplePacket_valid : examplePacket.Valid :=
  ⟨by decide, by decide, List.length_replicate _ _⟩

theorem zeroPacket_valid : zeroPacket.Valid :=
  ⟨by decide, by decide, List.length_replicate _ _⟩

theorem usedPacket_valid : usedPacket.Valid :=
  ⟨by decide, by decide, List.length_replicate _ _⟩

/-! Properties of the codec. -/

/-- C1, round trip: for every packet `p` and every receiver `q`, writing `p`
into an in-memory buffer succeeds, and reading `q` from a reader over exactly
those bytes returns, reports no error and leaves `q` equal to `p` in every
field. -/
theorem Read_Write_roundtrip (p q : AckPacket) (fuel : Nat) (hp : p.Valid) (hq : q.Valid)
    (hf : 0 < fuel) :
    (p.Write bufWriter []).out = Outcome.ok ∧
      ∃ res, q.Read fuel memReader (encode p) = some res ∧ res.err = none ∧ res.pkt = p := by
  obtain ⟨f, rfl⟩ := Nat.exists_eq_succ_of_ne_zero (Nat.pos_iff_ne_zero.mp hf)
  obtain ⟨h1, h2, h3⟩ := hp
  obtain ⟨_, _, hq3⟩ := hq
  have hw := wire_length p h3
  have henc := encode_eq p h3
  refine ⟨?_, ?_⟩
  · rw [Write_eq]
    exact bufferWriteTo_ok _ _ _ (by omega) rfl rfl
  · have hlen : 8 < (encode p).length := by rw [henc, hw]; decide
    refine ⟨_, Read_memReader f (encode p) q hlen, rfl, ?_⟩
    have e1 : (encode p).take 4 = putUint32 p.Time1 := by rw [henc]; rfl
    have e2 : ((encode p).drop 4).take 4 = putUint32 p.Time2 := by rw [henc]; rfl
    have e3 : (encode p).drop 8 = p.Payload := by rw [henc]; rfl
    simp only [e1, e2, e3, uint32_putUint32 _ h1, uint32_putUint32 _ h2]
    rw [hq3, ← h3, List.take_length, store_full _ _ (by rw [hq3, h3])]

theorem Read_Write_roundtrip_witness :
    examplePacket.Valid ∧ usedPacket.Valid ∧ 0 < 1 ∧
      (examplePacket.Write bufWriter []).out = Outcome.ok ∧
      ∃ res, usedPacket.Read 1 memReader (encode examplePacket) = some res ∧
        res.err = none ∧ res.pkt = examplePacket :=
  ⟨examplePacket_valid, usedPacket_valid, Nat.one_pos,
    Read_Write_roundtrip examplePacket usedPacket 1 examplePacket_valid usedPacket_valid
      Nat.one_pos⟩

/-- C2, wire layout: for every packet `p` and every destination that accepts
each write in full without error, `Write` returns no error and hands the
destination one sequence of 1536 bytes: bytes 0-3 are `Time1` big-endian (most
significant byte first), bytes 4-7 are `Time2` big-endian, bytes 8-1535 are
the payload. -/
theorem Write_wire_layout {ω : Type} (w : Writer ω) (d : ω) (p : AckPacket) (hp : p.Valid)
    (hw : ∀ s bs, (w.write s bs).n = bs.length ∧ (w.write s bs).err = none) :
    (p.Write w d).out = Outcome.ok ∧
      ∃ bs, (p.Write w d).offered = [bs] ∧ bs.length = 1536 ∧
        bs.take 4 = [toByte (p.Time1 / 2 ^ 24), toByte (p.Time1 / 2 ^ 16),
                     toByte (p.Time1 / 2 ^ 8), toByte p.Time1] ∧
        uint32 (bs.take 4) = p.Time1 ∧
        (bs.drop 4).take 4 = [toByte (p.Time2 / 2 ^ 24), toByte (p.Time2 / 2 ^ 16),
                              toByte (p.Time2 / 2 ^ 8), toByte p.Time2] ∧
        uint32 ((bs.drop 4).take 4) = p.Time2 ∧
        bs.drop 8 = p.Payload := by
  obtain ⟨h1, h2, h3⟩ := hp
  have hl := wire_length p h3
  obtain ⟨hn, he⟩ := hw d (putUint32 p.Time1 ++ putUint32 p.Time2 ++ p.Payload)
  have e1 : (putUint32 p.Time1 ++ putUint32 p.Time2 ++ p.Payload).take 4 = putUint32 p.Time1 :=
    rfl
  have e2 : ((putUint32 p.Time1 ++ putUint32 p.Time2 ++ p.Payload).drop 4).take 4 =
      putUint32 p.Time2 := rfl
  have e3 : (putUint32 p.Time1 ++ putUint32 p.Time2 ++ p.Payload).drop 8 = p.Payload := rfl
  refine ⟨?_, putUint32 p.Time1 ++ putUint32 p.Time2 ++ p.Payload, ?_, hl, ?_, ?_, ?_, ?_, e3⟩
  · rw [Write_eq]
    exact bufferWriteTo_ok _ _ _ (by omega) hn he
  · rw [Write_eq]
    exact bufferWriteTo_offered _ _ _ (by omega)
  · rw [e1]; simp [putUint32, Nat.shiftRight_eq_div_pow]
  · rw [e1]; exact uint32_putUint32 _ h1
  · rw [e2]; simp [putUint32, Nat.shiftRight_eq_div_pow]
  · rw [e2]; exact uint32_putUint32 _ h2

theorem Write_wire_layout_witness :
    examplePacket.Valid ∧
      (∀ (s bs : List Byte), (bufWriter.write s bs).n = bs.length ∧
        (bufWriter.write s bs).err = none) ∧
      (examplePacket.Write bufWriter []).out = Outcome.ok ∧
      (examplePacket.Write bufWriter []).offered =
        [[0, 0, 0, 0, 0, 0, 0, 1] ++ List.replicate 1528 0] ∧
      encode examplePacket = [0, 0, 0, 0, 0, 0, 0, 1] ++ List.replicate 1528 0 ∧
      ([0, 0, 0, 0, 0, 0, 0, 1] ++ List.replicate 1528 (0 : Byte)).length = 1536 := by
  have hfull : ∀ (s bs : List Byte), (bufWriter.write s bs).n = bs.length ∧
      (bufWriter.write s bs).err = none := fun _ _ => ⟨rfl, rfl⟩
  obtain ⟨hok, bs, hoff, hlen, _, _, _, _, _⟩ :=
    Write_wire_layout bufWriter [] examplePacket examplePacket_valid hfull
  have hb : putUint32 examplePacket.Time1 ++ putUint32 examplePacket.Time2 ++
      examplePacket.Payload = [0, 0, 0, 0, 0, 0, 0, 1] ++ List.replicate 1528 0 := rfl
  have hl := wire_length examplePacket examplePacket_valid.2.2
  have henc : encode examplePacket = [0, 0, 0, 0, 0, 0, 0, 1] ++ List.replicate 1528 0 :=
    (encode_eq examplePacket examplePacket_valid.2.2).trans hb
  have hoff2 : (examplePacket.Write bufWriter []).offered =
      [[0, 0, 0, 0, 0, 0, 0, 1] ++ List.replicate 1528 0] := by
    rw [Write_eq]
    dsimp only
    rw [bufferWriteTo_offered bufWriter [] _ (Nat.lt_of_lt_of_eq (by decide) hl.symm), hb]
  have hbs : bs = [0, 0, 0, 0, 0, 0, 0, 1] ++ List.replicate 1528 0 :=
    (List.cons.inj (hoff.symm.trans hoff2)).1
  rw [hbs] at hlen
  exact ⟨examplePacket_valid, hfull, hok, hoff2, henc, hlen⟩

/-- C3, exact length: for every packet and every destination, the byte
sequence `Write` hands to the destination has exactly 1536 bytes. -/
theorem Write_length {ω : Type} (w : Writer ω) (d : ω) (p : AckPacket) (hp : p.Valid) :
    (p.Write w d).offered.map List.length = [1536] ∧ packetSize = 1536 := by
  have hl := wire_length p hp.2.2
  refine ⟨?_, rfl⟩
  rw [Write_eq]
  simp only []
  rw [bufferWriteTo_offered _ _ _ (by omega), List.map_singleton, hl]

theorem Write_length_witness :
    usedPacket.Valid ∧
      ((usedPacket.Write bufWriter []).offered.map List.length = [1536] ∧ packetSize = 1536) :=
  ⟨usedPacket_valid, Write_length bufWriter [] usedPacket usedPacket_valid⟩

/-- C4, short stream: an in-memory reader over 1535 bytes, one fewer than a
packet, is decoded with no error; the source then holds nothing more. -/
theorem Read_short_stream_no_error :
    (List.replicate 1535 (0 : Byte)).length < 1536 ∧
      ∃ res, zeroPacket.Read 1 memReader (List.replicate 1535 0) = some res ∧
        res.err = none ∧ consumed res.calls = 1535 ∧ res.src = [] := by
  have hz : zeroPacket.Payload.length = 1528 := zeroPacket_valid.2.2
  refine ⟨by simp only [List.length_replicate]; decide, _,
    Read_memReader 0 (List.replicate 1535 0) zeroPacket
      (by simp only [List.length_replicate]; decide), rfl, ?_, ?_⟩
  · rw [consumed_three]
    simp only [hz, List.length_take, List.length_drop, List.length_replicate]
    decide
  · dsimp only
    rw [hz, List.drop_eq_nil_iff, List.length_replicate]
    decide

/-- C5, successful decode of a short stream: an in-memory reader over nine
bytes is decoded into a used receiver with no error, yet only nine bytes were
consumed and every payload byte after the first keeps its previous value. -/
theorem Read_success_not_exact :
    ∃ res, usedPacket.Read 1 memReader [0, 0, 0, 0, 0, 0, 0, 1, 7] = some res ∧
      res.err = none ∧ consumed res.calls = 9 ∧
      res.pkt.Payload = 7 :: List.replicate 1527 255 := by
  have hu : usedPacket.Payload.length = 1528 := usedPacket_valid.2.2
  refine ⟨_, Read_memReader 0 [0, 0, 0, 0, 0, 0, 0, 1, 7] usedPacket (by decide), rfl, ?_, ?_⟩
  · rw [consumed_three, hu]
    rfl
  · dsimp only
    rw [hu]
    have h7 : List.take 1528 (List.drop 8 [0, 0, 0, 0, 0, 0, 0, 1, (7 : Byte)]) = [7] := rfl
    rw [h7, store_short _ _ (by rw [hu]; decide)]
    rfl

/-- C6, chunked sources: a source over 1536 bytes that hands out at most 1000
bytes per call is decoded with no error although 528 payload bytes were never
read; a source over the same bytes that reports end-of-stream together with the
final bytes makes the decode fail although all 1536 bytes arrived. -/
theorem Read_depends_on_chunking :
    (∃ res, zeroPacket.Read 1 (chunkReader 1000) (List.replicate 1536 1) = some res ∧
      res.err = none ∧ consumed res.calls = 1008 ∧
      res.pkt.Payload = List.replicate 1000 1 ++ List.replicate 528 0) ∧
    (∃ res, zeroPacket.Read 1 eofWithDataReader (List.replicate 1536 1) = some res ∧
      res.err = some Error.EOF ∧ consumed res.calls = 1536 ∧
      res.pkt.Payload = List.replicate 1528 1) := by
  have hz : zeroPacket.Payload.length = 1528 := zeroPacket_valid.2.2
  have hm : Nat.min 1528 1000 = 1000 := by decide
  constructor
  · refine ⟨_, Read_chunkReader 0 1000 (List.replicate 1536 1) zeroPacket (by decide)
      (by simp only [List.length_replicate]; decide), rfl, ?_, ?_⟩
    · rw [consumed_three]
      simp only [hz, hm, List.length_take, List.length_drop, List.length_replicate]
      decide
    · dsimp only
      rw [hz, hm, store_short _ _ (by
        simp only [hz, List.length_take, List.length_drop, List.length_replicate]; decide)]
      simp only [List.length_take, List.length_drop, List.length_replicate,
        List.drop_replicate, List.take_replicate, zeroPacket]
      rfl
  · refine ⟨_, Read_eofWithDataReader 0 (List.replicate 1536 1) zeroPacket
      (by rw [hz, List.length_replicate]) (by rw [hz]; decide), rfl, ?_, ?_⟩
    · rw [consumed_three]
      simp only [List.length_take, List.length_drop, List.length_replicate]
      decide
    · dsimp only
      rw [List.drop_replicate]

/-- C7, as stated, fails: from an in-memory reader over 1530 bytes the decode
reports no error, and the payload call consumes 1522 bytes, not 1518. -/
theorem Read_1530_counterexample :
    ∃ res, zeroPacket.Read 1 memReader (List.replicate 1530 0) = some res ∧
      res.err = none ∧ res.calls.map (fun c => c.got.length) = [4, 4, 1522] ∧
      ¬ (res.err ≠ none ∧ res.calls.map (fun c => c.got.length) = [4, 4, 1518]) := by
  have hz : zeroPacket.Payload.length = 1528 := zeroPacket_valid.2.2
  have hc : ([⟨4, (List.replicate 1530 (0 : Byte)).take 4⟩,
      ⟨4, ((List.replicate 1530 (0 : Byte)).drop 4).take 4⟩,
      ⟨zeroPacket.Payload.length,
        ((List.replicate 1530 (0 : Byte)).drop 8).take zeroPacket.Payload.length⟩] :
      List Call).map (fun c => c.got.length) = [4, 4, 1522] := by
    simp only [List.map, hz, List.length_take, List.length_drop, List.length_replicate]
    decide
  refine ⟨_, Read_memReader 0 (List.replicate 1530 0) zeroPacket
    (by simp only [List.length_replicate]; decide), rfl, hc, ?_⟩
  intro h
  exact h.1 rfl

/-- C7, amended: from an in-memory reader over any 1530 bytes the decode
returns after three calls that consume the 4 bytes of `Time1`, the 4 bytes of
`Time2` and the remaining 1522 bytes, 1530 in all; both times are the
big-endian values of their four bytes. -/
theorem Read_1530_consumption (bs : List Byte) (a : AckPacket) (fuel : Nat)
    (hbs : bs.length = 1530) (ha : a.Valid) (hf : 0 < fuel) :
    ∃ res, a.Read fuel memReader bs = some res ∧
      res.calls = [⟨4, bs.take 4⟩, ⟨4, (bs.drop 4).take 4⟩, ⟨1528, bs.drop 8⟩] ∧
      (bs.take 4).length = 4 ∧ ((bs.drop 4).take 4).length = 4 ∧ (bs.drop 8).length = 1522 ∧
      consumed res.calls = 1530 ∧ res.src = [] ∧
      res.pkt.Time1 = uint32 (bs.take 4) ∧ res.pkt.Time2 = uint32 ((bs.drop 4).take 4) := by
  obtain ⟨f, rfl⟩ := Nat.exists_eq_succ_of_ne_zero (Nat.pos_iff_ne_zero.mp hf)
  have hl : a.Payload.length = 1528 := ha.2.2
  have h8 : (bs.drop 8).length = 1522 := by rw [List.length_drop, hbs]
  have ht : (bs.drop 8).take 1528 = bs.drop 8 := List.take_of_length_le (by omega)
  refine ⟨_, Read_memReader f bs a (by omega), ?_, ?_, ?_, h8, ?_, ?_, rfl, rfl⟩
  · dsimp only
    rw [hl, ht]
  · rw [List.length_take, hbs]; rfl
  · rw [List.length_take, List.length_drop, hbs]; rfl
  · rw [consumed_three, hl, ht, h8, List.length_take, List.length_take, List.length_drop, hbs]
    rfl
  · dsimp only
    rw [List.drop_eq_nil_iff, hl, hbs]
    decide

theorem Read_1530_consumption_witness :
    (List.replicate 1530 (7 : Byte)).length = 1530 ∧ usedPacket.Valid ∧ 0 < 1 ∧
      ∃ res, usedPacket.Read 1 memReader (List.replicate 1530 7) = some res ∧
        res.calls = [⟨4, (List.replicate 1530 7).take 4⟩,
          ⟨4, ((List.replicate 1530 7).drop 4).take 4⟩, ⟨1528, (List.replicate 1530 7).drop 8⟩] ∧
        ((List.replicate 1530 (7 : Byte)).take 4).length = 4 ∧
        (((List.replicate 1530 (7 : Byte)).drop 4).take 4).length = 4 ∧
        ((List.replicate 1530 (7 : Byte)).drop 8).length = 1522 ∧
        consumed res.calls = 1530 ∧ res.src = [] ∧
        res.pkt.Time1 = uint32 ((List.replicate 1530 7).take 4) ∧
        res.pkt.Time2 = uint32 (((List.replicate 1530 7).drop 4).take 4) :=
  ⟨List.length_replicate _ _, usedPacket_valid, Nat.one_pos,
    Read_1530_consumption (List.replicate 1530 7) usedPacket 1 (List.length_replicate _ _)
      usedPacket_valid Nat.one_pos⟩

/-- C8, as stated, fails: from an in-memory reader over four bytes the decode
returns `io.EOF` from the read of `Time2`, and `Time1` of the receiver has
already changed from 0 to 1. -/
theorem Read_error_updates_Time1 :
    ∃ res, zeroPacket.Read 1 memReader [0, 0, 0, 1] = some res ∧
      res.err = some Error.EOF ∧ res.pkt.Time1 = 1 ∧ zeroPacket.Time1 = 0 :=
  ⟨_, rfl, rfl, rfl, rfl⟩

/-- C8, amended: when the decode returns an error, the fields it had not
reached are what they were before and the times decoded before the failing
read hold their new values. If the read of `Time1` failed the receiver is
unchanged; if the read of `Time2` failed only `Time1` changed, so `Time2` and
the payload are as before; if the payload read failed both times hold their
decoded values, and nothing is said about the payload, which was handed to
the source as its buffer. -/
theorem Read_error_fields {σ : Type} (fuel : Nat) (r : Reader σ) (s : σ) (a : AckPacket)
    (res : ReadResult σ) (h : a.Read fuel r s = some res) (he : res.err ≠ none) :
    ∃ r1, binaryRead fuel r s a.Time1 = some r1 ∧
      ((r1.err ≠ none ∧ res.pkt = a) ∨
       (r1.err = none ∧ ∃ r2, binaryRead fuel r r1.src a.Time2 = some r2 ∧
          ((r2.err ≠ none ∧ res.pkt = { a with Time1 := r1.val }) ∨
           (r2.err = none ∧ (r.read r2.src a.Payload.length).err ≠ none ∧
              res.pkt.Time1 = r1.val ∧ res.pkt.Time2 = r2.val)))) := by
  unfold AckPacket.Read at h
  cases h1 : binaryRead fuel r s a.Time1 with
  | none => simp [h1] at h
  | some r1 =>
    refine ⟨r1, rfl, ?_⟩
    simp only [h1] at h
    cases e1 : r1.err with
    | some e =>
      left
      simp only [e1] at h
      cases h
      have hv := binaryRead_err_val fuel r s a.Time1 r1 h1 e e1
      refine ⟨by simp, ?_⟩
      dsimp only
      rw [hv]
    | none =>
      right
      refine ⟨rfl, ?_⟩
      simp only [e1] at h
      cases h2 : binaryRead fuel r r1.src a.Time2 with
      | none => simp [h2] at h
      | some r2 =>
        refine ⟨r2, rfl, ?_⟩
        simp only [h2] at h
        cases e2 : r2.err with
        | some e =>
          left
          simp only [e2] at h
          cases h
          have hv := binaryRead_err_val fuel r r1.src a.Time2 r2 h2 e e2
          refine ⟨by simp, ?_⟩
          dsimp only
          rw [hv]
        | none =>
          right
          simp only [e2] at h
          cases e3 : (r.read r2.src a.Payload.length).err with
          | some e =>
            simp only [e3] at h
            cases h
            exact ⟨rfl, by simp, rfl, rfl⟩
          | none =>
            simp only [e3] at h
            cases h
            exact absurd rfl he

theorem Read_error_fields_witness :
    zeroPacket.Read 1 memReader [0, 0, 0, 1] =
        some { pkt := { zeroPacket with Time1 := 1 }, err := some Error.EOF, src := [],
               calls := [⟨4, [0, 0, 0, 1]⟩, ⟨4, []⟩] } ∧
      (some Error.EOF : Option Error) ≠ none ∧
      ∃ r1, binaryRead 1 memReader [0, 0, 0, 1] zeroPacket.Time1 = some r1 ∧
        ((r1.err ≠ none ∧ ({ zeroPacket with Time1 := 1 } : AckPacket) = zeroPacket) ∨
         (r1.err = none ∧ ∃ r2, binaryRead 1 memReader r1.src zeroPacket.Time2 = some r2 ∧
            ((r2.err ≠ none ∧
                ({ zeroPacket with Time1 := 1 } : AckPacket) = { zeroPacket with Time1 := r1.val }) ∨
             (r2.err = none ∧ (memReader.read r2.src zeroPacket.Payload.length).err ≠ none ∧
                ({ zeroPacket with Time1 := 1 } : AckPacket).Time1 = r1.val ∧
                ({ zeroPacket with Time1 := 1 } : AckPacket).Time2 = r2.val)))) :=
  ⟨rfl, by simp,
    Read_error_fields 1 memReader [0, 0, 0, 1] zeroPacket
      { pkt := { zeroPacket with Time1 := 1 }, err := some Error.EOF, src := [],
        calls := [⟨4, [0, 0, 0, 1]⟩, ⟨4, []⟩] } rfl (by simp)⟩

/-- C9, sequential dependency of the reads: when the read of `Time1` ends
below four bytes, the decode returns that read's error and has made no call to
the source beyond those of the `Time1` read; when `Time1` was read and the read
of `Time2` ends below four bytes, the decode returns that error and has made
only the calls of the two time reads, none for the payload. -/
theorem Read_sequential_dependency {σ : Type} (fuel : Nat) (r : Reader σ) (s : σ)
    (a : AckPacket) (r1 : BinRead σ) (h1 : binaryRead fuel r s a.Time1 = some r1) :
    (r1.n < 4 →
      ∃ e, r1.err = some e ∧
        a.Read fuel r s = some { pkt := a, err := some e, src := r1.src, calls := r1.calls }) ∧
    (r1.err = none →
      ∀ r2, binaryRead fuel r r1.src a.Time2 = some r2 → r2.n < 4 →
        ∃ e, r2.err = some e ∧
          a.Read fuel r s =
            some { pkt := { a with Time1 := r1.val }, err := some e, src := r2.src,
                   calls := r1.calls ++ r2.calls }) := by
  constructor
  · intro hn
    obtain ⟨e, he, hv⟩ := binaryRead_short fuel r s a.Time1 r1 h1 hn
    refine ⟨e, he, ?_⟩
    unfold AckPacket.Read
    simp only [h1, he, hv]
  · intro he1 r2 h2 hn
    obtain ⟨e, he, hv⟩ := binaryRead_short fuel r r1.src a.Time2 r2 h2 hn
    refine ⟨e, he, ?_⟩
    unfold AckPacket.Read
    simp only [h1, he1, h2, he, hv]

theorem Read_sequential_dependency_witness :
    (binaryRead 1 memReader [] zeroPacket.Time1 =
        some { val := 0, err := some Error.EOF, n := 0, src := [], calls := [⟨4, []⟩] } ∧
      0 < 4 ∧
      ∃ e, (some Error.EOF : Option Error) = some e ∧
        zeroPacket.Read 1 memReader [] =
          some { pkt := zeroPacket, err := some e, src := [], calls := [⟨4, []⟩] }) ∧
    (binaryRead 1 memReader [0, 0, 0, 1] zeroPacket.Time1 =
        some { val := 1, err := none, n := 4, src := [], calls := [⟨4, [0, 0, 0, 1]⟩] } ∧
      binaryRead 1 memReader [] zeroPacket.Time2 =
        some { val := 0, err := some Error.EOF, n := 0, src := [], calls := [⟨4, []⟩] } ∧
      0 < 4 ∧
      ∃ e, (some Error.EOF : Option Error) = some e ∧
        zeroPacket.Read 1 memReader [0, 0, 0, 1] =
          some { pkt := { zeroPacket with Time1 := 1 }, err := some e, src := [],
                 calls := [⟨4, [0, 0, 0, 1]⟩] ++ [⟨4, []⟩] }) :=
  ⟨⟨rfl, by decide,
      (Read_sequential_dependency 1 memReader [] zeroPacket
        { val := 0, err := some Error.EOF, n := 0, src := [], calls := [⟨4, []⟩] } rfl).1
        (by decide)⟩,
    ⟨rfl, rfl, by decide,
      (Read_sequential_dependency 1 memReader [0, 0, 0, 1] zeroPacket
        { val := 1, err := none, n := 4, src := [], calls := [⟨4, [0, 0, 0, 1]⟩] } rfl).2 rfl
        { val := 0, err := some Error.EOF, n := 0, src := [], calls := [⟨4, []⟩] } rfl
        (by decide)⟩⟩

/-- C10, write failure propagation: `Write` offers the destination the 1536
encoded bytes in one call; when the destination answers that call with an
error or with a count below 1536, `Write` does not report success. It returns
an error whenever the count is within the bytes offered, the destination's own
error if there is one, and `io.ErrShortWrite` for a short count without an
error. -/
theorem Write_failure_propagates {ω : Type} (w : Writer ω) (d : ω) (p : AckPacket)
    (hp : p.Valid)
    (hw : (w.write d (encode p)).err ≠ none ∨ (w.write d (encode p)).n < 1536) :
    (p.Write w d).offered = [encode p] ∧ (encode p).length = 1536 ∧
      (p.Write w d).out ≠ Outcome.ok ∧
      ((w.write d (encode p)).n ≤ 1536 → ∃ e, (p.Write w d).out = Outcome.fail e) ∧
      (∀ e, (w.write d (encode p)).n ≤ 1536 → (w.write d (encode p)).err = some e →
        (p.Write w d).out = Outcome.fail e) ∧
      ((w.write d (encode p)).err = none →
        (p.Write w d).out = Outcome.fail Error.ErrShortWrite) := by
  have hl := wire_length p hp.2.2
  have hpos : 0 < (putUint32 p.Time1 ++ putUint32 p.Time2 ++ p.Payload).length := by omega
  rw [encode_eq p hp.2.2] at hw ⊢
  rw [Write_eq]
  dsimp only
  rw [bufferWriteTo_offered _ _ _ hpos]
  generalize putUint32 p.Time1 ++ putUint32 p.Time2 ++ p.Payload = bs at hl hpos hw
  have hshort : (w.write d bs).err = none → (w.write d bs).n ≠ bs.length := by
    intro he
    rcases hw with h | h
    · exact absurd he h
    · omega
  unfold bufferWriteTo
  rw [if_pos hpos]
  dsimp only
  refine ⟨rfl, hl, ?_, ?_, ?_, ?_⟩
  · by_cases hgt : bs.length < (w.write d bs).n
    · rw [if_pos hgt]; simp
    · rw [if_neg hgt]
      cases he : (w.write d bs).err with
      | some e => simp
      | none => simp [hshort he]
  · intro hle
    rw [if_neg (by omega)]
    cases he : (w.write d bs).err with
    | some e => exact ⟨e, rfl⟩
    | none => exact ⟨Error.ErrShortWrite, by simp [hshort he]⟩
  · intro e hle he
    rw [if_neg (by omega)]
    simp [he]
  · intro he
    have hlt : (w.write d bs).n < 1536 := by
      rcases hw with h | h
      · exact absurd he h
      · exact h
    rw [if_neg (by omega)]
    simp [he, hshort he]

theorem Write_failure_propagates_witness :
    (examplePacket.Valid ∧
      (((shortWriter 10).write [] (encode examplePacket)).err ≠ none ∨
        ((shortWriter 10).write [] (encode examplePacket)).n < 1536) ∧
      ((shortWriter 10).write [] (encode examplePacket)).err = none ∧
      (examplePacket.Write (shortWriter 10) []).out ≠ Outcome.ok ∧
      (examplePacket.Write (shortWriter 10) []).out = Outcome.fail Error.ErrShortWrite) ∧
    (usedPacket.Valid ∧
      (((failingWriter (Error.other 5)).write () (encode usedPacket)).err ≠ none ∨
        ((failingWriter (Error.other 5)).write () (encode usedPacket)).n < 1536) ∧
      ((failingWriter (Error.other 5)).write () (encode usedPacket)).n ≤ 1536 ∧
      ((failingWriter (Error.other 5)).write () (encode usedPacket)).err =
        some (Error.other 5) ∧
      (usedPacket.Write (failingWriter (Error.other 5)) ()).out =
        Outcome.fail (Error.other 5)) :=
  have hw : ((shortWriter 10).write [] (encode examplePacket)).err ≠ none ∨
      ((shortWriter 10).write [] (encode examplePacket)).n < 1536 :=
    Or.inr (Nat.lt_of_le_of_lt (Nat.min_le_left 10 _) (by decide))
  have hf : ((failingWriter (Error.other 5)).write () (encode usedPacket)).err ≠ none ∨
      ((failingWriter (Error.other 5)).write () (encode usedPacket)).n < 1536 :=
    Or.inr (by decide)
  ⟨⟨examplePacket_valid, hw, rfl,
      (Write_failure_propagates (shortWriter 10) [] examplePacket examplePacket_valid hw).2.2.1,
      (Write_failure_propagates (shortWriter 10) [] examplePacket examplePacket_valid
        hw).2.2.2.2.2 rfl⟩,
    ⟨usedPacket_valid, hf, Nat.zero_le _, rfl,
      (Write_failure_propagates (failingWriter (Error.other 5)) () usedPacket usedPacket_valid
        hf).2.2.2.2.1 (Error.other 5) (Nat.zero_le _) rfl⟩⟩

/-! Single write, bounded consumption, and purity of the encoder. -/

theorem wire_pos (a : AckPacket) :
    0 < (putUint32 a.Time1 ++ putUint32 a.Time2 ++ a.Payload).length := by
  simp [putUint32]

theorem consumed_append (cs ds : List Call) : consumed (cs ++ ds) = consumed cs + consumed ds := by
  simp [consumed]

theorem consumed_single (k : Nat) (got : List Byte) : consumed [⟨k, got⟩] = got.length := by
  simp [consumed]

theorem memReader_read_le (rest : List Byte) (k : Nat) :
    (memReader.read rest k).data.length ≤ k := by
  unfold memReader
  dsimp only
  split
  · exact Nat.zero_le k
  · rw [List.length_take]
    exact Nat.min_le_left _ _

/-- Invariant of the loop of `io.ReadAtLeast` for a reader that never delivers
more than it was asked for: the buffer keeps its length, the count stays
within the buffer, and the count is the number of bytes consumed so far. -/
theorem readLoop_invariant {σ : Type} (r : Reader σ) (min : Nat)
    (hr : ∀ s k, (r.read s k).data.length ≤ k) :
    ∀ (fuel : Nat) (st st1 : ReadState σ), readLoop r min fuel st = some st1 →
      st.n ≤ st.buf.length → consumed st.calls = st.n →
      st1.buf.length = st.buf.length ∧ st1.n ≤ st1.buf.length ∧ consumed st1.calls = st1.n := by
  intro fuel
  induction fuel with
  | zero =>
    intro st st1 h hn hc
    by_cases hcond : st.n < min ∧ st.err = none
    · simp [readLoop, hcond] at h
    · rw [readLoop_done r min 0 st hcond] at h
      cases h
      exact ⟨rfl, hn, hc⟩
  | succ fuel ih =>
    intro st st1 h hn hc
    by_cases hcond : st.n < min ∧ st.err = none
    · rw [readLoop_step r min fuel st hcond.1 hcond.2] at h
      have hd := hr st.src (st.buf.length - st.n)
      have hlen : (st.buf.take st.n ++
          store (st.buf.drop st.n) ((r.read st.src (st.buf.length - st.n)).data ++
            (r.read st.src (st.buf.length - st.n)).scratch)).length =
          st.buf.length := by
        rw [List.length_append, store_length, List.length_take, List.length_drop]
        omega
      obtain ⟨h1, h2, h3⟩ := ih _ st1 h
        (by dsimp only; rw [hlen]; omega)
        (by dsimp only; rw [consumed_append, consumed_single, hc])
      exact ⟨h1.trans hlen, h2, h3⟩
    · rw [readLoop_done r min (fuel + 1) st hcond] at h
      cases h
      exact ⟨rfl, hn, hc⟩

/-- A `binary.Read` from a reader that never delivers more than it was asked
for consumes exactly its count, which is at most four bytes. -/
theorem binaryRead_consumed {σ : Type} (fuel : Nat) (r : Reader σ) (s : σ) (old : Nat)
    (hr : ∀ s k, (r.read s k).data.length ≤ k) (r1 : BinRead σ)
    (h : binaryRead fuel r s old = some r1) : consumed r1.calls = r1.n ∧ r1.n ≤ 4 := by
  unfold binaryRead readFull readAtLeast at h
  simp only [List.length_cons, List.length_nil, Nat.lt_irrefl, if_false] at h
  cases hl : readLoop r 4 fuel
      { buf := [0, 0, 0, 0], n := 0, err := none, src := s, calls := [] } with
  | none => simp [hl] at h
  | some st =>
    obtain ⟨hb, hn, hc⟩ := readLoop_invariant r 4 hr fuel _ st hl (Nat.zero_le _) rfl
    have hn4 : st.n ≤ 4 := by
      rw [hb] at hn
      exact hn
    simp only [hl] at h
    by_cases h4 : 4 ≤ st.n
    · simp only [h4, if_true] at h
      cases h
      exact ⟨hc, hn4⟩
    · simp only [h4, if_false] at h
      by_cases h0 : 0 < st.n ∧ st.err = some Error.EOF
      · simp only [h0, and_self, if_true] at h
        cases h
        exact ⟨hc, hn4⟩
      · simp only [h0, if_false] at h
        cases he : st.err with
        | none =>
          simp only [he] at h
          cases h
          exact ⟨hc, hn4⟩
        | some e =>
          simp only [he] at h
          cases h
          exact ⟨hc, hn4⟩

/-- C11, single contiguous write without retry: for every packet and every
destination, `Write` offers the destination exactly one byte sequence, the
full 1536 encoded bytes, and the destination is left in the state that this
one call produced, whatever the call answered. -/
theorem Write_single_call {ω : Type} (w : Writer ω) (d : ω) (p : AckPacket) (hp : p.Valid) :
    (p.Write w d).offered = [encode p] ∧ (p.Write w d).offered.length = 1 ∧
      (encode p).length = 1536 ∧ (p.Write w d).dst = (w.write d (encode p)).next := by
  have hl := wire_length p hp.2.2
  have hpos := wire_pos p
  rw [encode_eq p hp.2.2, Write_eq]
  dsimp only
  rw [bufferWriteTo_offered _ _ _ hpos, bufferWriteTo_dst _ _ _ hpos]
  exact ⟨rfl, rfl, hl, rfl⟩

theorem Write_single_call_witness :
    usedPacket.Valid ∧
      (usedPacket.Write (shortWriter 3) []).offered = [encode usedPacket] ∧
      (usedPacket.Write (shortWriter 3) []).offered.length = 1 ∧
      (encode usedPacket).length = 1536 ∧
      (usedPacket.Write (shortWriter 3) []).dst =
        ((shortWriter 3).write [] (encode usedPacket)).next :=
  ⟨usedPacket_valid, Write_single_call (shortWriter 3) [] usedPacket usedPacket_valid⟩

/-- C12, bounded consumption: for a source that never delivers more than it
was asked for, a decode that returns has consumed at most 1536 bytes: at most
4 in the read of `Time1`, at most 4 in the read of `Time2`, and at most 1528 in
the payload read, which is a single call asking for 1528 bytes. -/
theorem Read_bounded_consumption {σ : Type} (fuel : Nat) (r : Reader σ) (s : σ)
    (a : AckPacket) (res : ReadResult σ) (ha : a.Valid)
    (hr : ∀ s k, (r.read s k).data.length ≤ k) (h : a.Read fuel r s = some res) :
    consumed res.calls ≤ 1536 ∧
      ∃ r1, binaryRead fuel r s a.Time1 = some r1 ∧ consumed r1.calls ≤ 4 ∧
        (res.calls = r1.calls ∨
         ∃ r2, binaryRead fuel r r1.src a.Time2 = some r2 ∧ consumed r2.calls ≤ 4 ∧
           (res.calls = r1.calls ++ r2.calls ∨
            ∃ got, res.calls = r1.calls ++ r2.calls ++ [⟨1528, got⟩] ∧
              got.length ≤ 1528)) := by
  have hl : a.Payload.length = 1528 := ha.2.2
  unfold AckPacket.Read at h
  cases h1 : binaryRead fuel r s a.Time1 with
  | none => simp [h1] at h
  | some r1 =>
    obtain ⟨c1, n1⟩ := binaryRead_consumed fuel r s a.Time1 hr r1 h1
    have b1 : consumed r1.calls ≤ 4 := by omega
    simp only [h1] at h
    cases e1 : r1.err with
    | some e =>
      simp only [e1] at h
      cases h
      exact ⟨by dsimp only; omega, r1, rfl, b1, Or.inl rfl⟩
    | none =>
      simp only [e1] at h
      cases h2 : binaryRead fuel r r1.src a.Time2 with
      | none => simp [h2] at h
      | some r2 =>
        obtain ⟨c2, n2⟩ := binaryRead_consumed fuel r r1.src a.Time2 hr r2 h2
        have b2 : consumed r2.calls ≤ 4 := by omega
        simp only [h2] at h
        cases e2 : r2.err with
        | some e =>
          simp only [e2] at h
          cases h
          exact ⟨by dsimp only; rw [consumed_append]; omega, r1, rfl, b1,
            Or.inr ⟨r2, h2, b2, Or.inl rfl⟩⟩
        | none =>
          simp only [e2, hl] at h
          have hd := hr r2.src 1528
          have hres : res.calls = r1.calls ++ r2.calls ++ [⟨1528, (r.read r2.src 1528).data⟩] := by
            cases e3 : (r.read r2.src 1528).err with
            | some e =>
              simp only [e3] at h
              cases h
              rfl
            | none =>
              simp only [e3] at h
              cases h
              rfl
          refine ⟨?_, r1, rfl, b1, Or.inr ⟨r2, h2, b2, Or.inr ⟨_, hres, hd⟩⟩⟩
          rw [hres, consumed_append, consumed_append, consumed_single]
          omega

theorem Read_bounded_consumption_witness :
    zeroPacket.Valid ∧ (∀ (s : List Byte) (k : Nat), (memReader.read s k).data.length ≤ k) ∧
      ∃ res, zeroPacket.Read 1 memReader (List.replicate 1536 1) = some res ∧
        consumed res.calls ≤ 1536 ∧
        ∃ r1, binaryRead 1 memReader (List.replicate 1536 1) zeroPacket.Time1 = some r1 ∧
          consumed r1.calls ≤ 4 ∧
          (res.calls = r1.calls ∨
           ∃ r2, binaryRead 1 memReader r1.src zeroPacket.Time2 = some r2 ∧
             consumed r2.calls ≤ 4 ∧
             (res.calls = r1.calls ++ r2.calls ∨
              ∃ got, res.calls = r1.calls ++ r2.calls ++ [⟨1528, got⟩] ∧
                got.length ≤ 1528)) :=
  have hlen : 8 < (List.replicate 1536 (1 : Byte)).length := by
    rw [List.length_replicate]; decide
  ⟨zeroPacket_valid, memReader_read_le, _,
    Read_memReader 0 (List.replicate 1536 1) zeroPacket hlen,
    Read_bounded_consumption 1 memReader (List.replicate 1536 1) zeroPacket _ zeroPacket_valid
      memReader_read_le (Read_memReader 0 (List.replicate 1536 1) zeroPacket hlen)⟩

/-- C13, the encoder leaves the packet unchanged and is deterministic: however
`Write` ends, the receiver has the field values it had before; the bytes
offered are the big-endian times followed by the payload, a function of the
packet alone, so any two destinations, and a second call on the destination
left by a first, are offered the same bytes. -/
theorem Write_frame_deterministic {ω ω1 : Type} (w : Writer ω) (d : ω) (w1 : Writer ω1)
    (d1 : ω1) (p : AckPacket) :
    (p.Write w d).pkt = p ∧
      (p.Write w d).offered = [putUint32 p.Time1 ++ putUint32 p.Time2 ++ p.Payload] ∧
      (p.Write w1 d1).offered = (p.Write w d).offered ∧
      ((p.Write w d).pkt.Write w (p.Write w d).dst).offered = (p.Write w d).offered := by
  have hpos := wire_pos p
  have hoff : ∀ {τ : Type} (v : Writer τ) (e : τ),
      (p.Write v e).offered = [putUint32 p.Time1 ++ putUint32 p.Time2 ++ p.Payload] := by
    intro τ v e
    rw [Write_eq]
    exact bufferWriteTo_offered _ _ _ hpos
  have hpkt : (p.Write w d).pkt = p := by rw [Write_eq]
  refine ⟨hpkt, hoff w d, ?_, ?_⟩
  · rw [hoff w1 d1, hoff w d]
  · rw [hpkt, hoff w _, hoff w d]

end Handshake
